import Mathlib

/-!
# Verification of the taxtastic taxonomy maintenance code

This file shallowly embeds the parts of `taxtastic/ncbi.py` and
`taxtastic/greengenes.py` that maintain the `nodes` and `names` tables:
the primary-name healer (`fix_missing_primary`), the validity seeder
(`mark_is_valid`), the subtree validity propagator
(`update_subtree_validity` / `mark_subtrees` / `partition`), the
name-classification regex (`UNCLASSIFIED_REGEX` as used by `read_names`),
and the GreenGenes helper `_add_space`.

Tables are lists of row records; SQL `UPDATE` statements become maps over
those lists, SQL `SELECT` queries become filters/joins, and SQLite `NULL`
for the nullable `is_valid` / `is_classified` columns is `Option Int`.
Python's `while` loop in `mark_subtrees` is embedded with an explicit fuel
parameter (the termination theorem below shows a fuel of tree-depth + 2
suffices, so on well-formed trees the embedding agrees with the unbounded
Python loop).
-/

namespace Taxtastic

/-! ## Generic list helpers -/

/-- Stable insertion used by `sortBy`: `x` is placed before the first
element not strictly smaller than it, so equal keys keep their input
order. -/
def insertBy (lt : α → α → Bool) (x : α) : List α → List α
  | [] => [x]
  | y :: ys => if lt y x then y :: insertBy lt x ys else x :: y :: ys

/-- Stable sort modelling SQL `ORDER BY` (SQLite sorts are modelled as an
arbitrary stable sort; only sortedness and stability are relied on). -/
def sortBy (lt : α → α → Bool) : List α → List α
  | [] => []
  | x :: xs => insertBy lt x (sortBy lt xs)

/-- Distinct elements in order of first appearance, skipping elements in
`seen`; models the group keys of SQL `GROUP BY tax_id`. -/
def dedupFirstAux (seen : List String) : List String → List String
  | [] => []
  | x :: xs =>
      if seen.contains x then dedupFirstAux seen xs
      else x :: dedupFirstAux (x :: seen) xs

def dedupFirst (l : List String) : List String := dedupFirstAux [] l

/-- `partition` from `update_subtree_validity` (ncbi.py lines 295-302):
split a list into successive chunks of at most `size` elements.  The
`fuel` argument (instantiated with the list length, which always
suffices for a positive size) only drives structural recursion. -/
def partitionGo (size : Nat) : Nat → List α → List (List α)
  | _, [] => []
  | 0, _ :: _ => []
  | fuel + 1, x :: xs =>
      (x :: xs).take size :: partitionGo size fuel ((x :: xs).drop size)

/-- With `size = 0` the Python generator's first `islice` is empty and
the loop breaks at once, yielding no chunks. -/
def partition (l : List α) (size : Nat) : List (List α) :=
  match size with
  | 0 => []
  | s + 1 => partitionGo (s + 1) l.length l

theorem partitionGo_fuel_irrel (s : Nat) :
    ∀ f1 f2 : Nat, ∀ l : List α, l.length ≤ f1 → l.length ≤ f2 →
      partitionGo (s + 1) f1 l = partitionGo (s + 1) f2 l := by
  intro f1
  induction f1 with
  | zero =>
    intro f2 l h1 _
    have : l = [] := List.eq_nil_of_length_eq_zero (Nat.le_zero.mp h1)
    subst this
    cases f2 <;> rfl
  | succ f ih =>
    intro f2 l h1 h2
    cases l with
    | nil => cases f2 <;> rfl
    | cons x xs =>
      cases f2 with
      | zero => simp at h2
      | succ f2 =>
        simp only [partitionGo]
        congr 1
        apply ih
        · simp only [List.length_drop, List.length_cons] at *
          omega
        · simp only [List.length_drop, List.length_cons] at *
          omega

theorem partition_nil (n : Nat) : partition ([] : List α) n = [] := by
  cases n <;> rfl

/-- Unfolding equation for `partition` on a nonempty list and positive
chunk size: first chunk of `size` elements, then the chunks of the rest. -/
theorem partition_cons (x : α) (xs : List α) (s : Nat) :
    partition (x :: xs) (s + 1) =
      (x :: xs).take (s + 1) :: partition ((x :: xs).drop (s + 1)) (s + 1) := by
  show partitionGo (s + 1) (x :: xs).length (x :: xs) = _
  cases hlen : (x :: xs).length with
  | zero => simp at hlen
  | succ f =>
    simp only [partitionGo]
    congr 1
    cases hdrop : (x :: xs).drop (s + 1) with
    | nil => cases f <;> rfl
    | cons y ys =>
      apply partitionGo_fuel_irrel
      · have := congrArg List.length hdrop
        simp only [List.length_drop, List.length_cons] at this hlen ⊢
        omega
      · exact le_refl _

/-- Every chunk produced by `partition` has at most `size` elements. -/
theorem partition_chunk_length_le :
    ∀ (l : List α) (n : Nat), ∀ c ∈ partition l n, c.length ≤ n := by
  have go : ∀ (s : Nat) (f : Nat) (l : List α), ∀ c ∈ partitionGo (s + 1) f l,
      c.length ≤ s + 1 := by
    intro s f
    induction f with
    | zero => intro l c hc; cases l <;> simp [partitionGo] at hc
    | succ f ih =>
      intro l c hc
      cases l with
      | nil => simp [partitionGo] at hc
      | cons x xs =>
        simp only [partitionGo, List.mem_cons] at hc
        rcases hc with hc | hc
        · subst hc; exact List.length_take_le _ _
        · exact ih _ c hc
  intro l n c hc
  cases n with
  | zero => simp [partition] at hc
  | succ s => exact go s _ l c hc

/-- Concatenating the chunks of `partition` recovers the original list
(for a positive chunk size). -/
theorem partition_join (s : Nat) :
    ∀ l : List α, (partition l (s + 1)).flatten = l := by
  have go : ∀ (f : Nat) (l : List α), l.length ≤ f →
      (partitionGo (s + 1) f l).flatten = l := by
    intro f
    induction f with
    | zero =>
      intro l h
      have : l = [] := List.eq_nil_of_length_eq_zero (Nat.le_zero.mp h)
      subst this; rfl
    | succ f ih =>
      intro l h
      cases l with
      | nil => rfl
      | cons x xs =>
        simp only [partitionGo, List.flatten_cons]
        rw [ih]
        · exact List.take_append_drop _ _
        · simp only [List.length_drop, List.length_cons] at *
          omega
  intro l
  exact go l.length l (le_refl _)

/-! ## Data model

Rows of the `names` and `nodes` tables (ncbi.py schema, lines 35-60).
Columns not touched by the verified operations (`embl_code`,
`division_id`, `source_id`) are omitted.  `is_valid` and `is_classified`
are nullable in the schema, hence `Option Int`; `is_primary` is an SQL
`INTEGER` written as 0/1 by the loader. -/

structure NameRow where
  tax_id : String
  tax_name : String
  unique_name : String
  name_class : String
  is_primary : Int
  is_classified : Option Int
deriving DecidableEq, Repr

structure NodeRow where
  tax_id : String
  parent_id : String
  rank : String
  is_valid : Option Int
deriving DecidableEq, Repr

/-! ## Primary-name healer (`fix_missing_primary`, ncbi.py lines 244-275) -/

/-- `SELECT tax_id, tax_name, unique_name, name_class FROM names WHERE
tax_id = ?` (the `rows_for_taxid` query); full rows are kept since the
remaining columns are never read. -/
def rowsForTaxId (t : List NameRow) (taxId : String) : List NameRow :=
  t.filter (fun r => r.tax_id == taxId)

def sumPrimary (rs : List NameRow) : Int :=
  (rs.map (fun r => r.is_primary)).sum

/-- The `missing_primary` query: `SELECT tax_id FROM names GROUP BY
tax_id HAVING SUM(is_primary) = 0`. -/
def missingPrimary (t : List NameRow) : List String :=
  (dedupFirst (t.map (fun r => r.tax_id))).filter
    (fun i => sumPrimary (rowsForTaxId t i) == 0)

/-- `UPDATE names SET is_primary = 1 WHERE tax_id = ? AND name_class = ?`. -/
def updateByClass (t : List NameRow) (taxId nameClass : String) : List NameRow :=
  t.map (fun r =>
    if r.tax_id == taxId && r.name_class == nameClass then
      { r with is_primary := 1 } else r)

/-- `UPDATE names SET is_primary = 1 WHERE tax_id = ? AND tax_name = ?
AND unique_name = ? AND name_class = ?`. -/
def updateByFullKey (t : List NameRow) (taxId taxName uniqueName nameClass : String) :
    List NameRow :=
  t.map (fun r =>
    if r.tax_id == taxId && r.tax_name == taxName &&
        r.unique_name == uniqueName && r.name_class == nameClass then
      { r with is_primary := 1 } else r)

/-- The only run-time failure of the healing loop: `records[0]` on an
empty candidate list raises Python `IndexError`.  `integrityFailure`
stands for raising the repo's `errors.IntegrityError` (imported at
ncbi.py line 29; its module is not under `src/`); the healer itself
never produces it, which claim C7 is about. -/
inductive HealFailure where
  | indexFailure
  | integrityFailure
deriving DecidableEq, Repr

instance : DecidableEq (Except HealFailure (List NameRow)) := fun a b =>
  match a, b with
  | Except.ok x, Except.ok y =>
      if h : x = y then Decidable.isTrue (by rw [h])
      else Decidable.isFalse (by intro hh; injection hh with hh; exact h hh)
  | Except.error x, Except.error y =>
      if h : x = y then Decidable.isTrue (by rw [h])
      else Decidable.isFalse (by intro hh; injection hh with hh; exact h hh)
  | Except.ok _, Except.error _ => Decidable.isFalse (by intro hh; injection hh)
  | Except.error _, Except.ok _ => Decidable.isFalse (by intro hh; injection hh)

/-- Body of the `for tax_id in tax_ids` loop of `fix_missing_primary`
for one `tax_id`.  When exactly one candidate has name_class
"scientific name", *both* UPDATE statements run (the second one is not
under the `else`); otherwise only the full-key UPDATE on `records[0]`
runs. -/
def healOne (t : List NameRow) (taxId : String) : Except HealFailure (List NameRow) :=
  let records := rowsForTaxId t taxId
  if (records.filter (fun r => r.name_class == "scientific name")).length = 1 then
    match records.find? (fun r => r.name_class == "scientific name") with
    | some r =>
        Except.ok (updateByFullKey (updateByClass t taxId "scientific name")
          r.tax_id r.tax_name r.unique_name r.name_class)
    | none => Except.ok t
  else
    match records with
    | [] => Except.error HealFailure.indexFailure
    | r :: _ => Except.ok (updateByFullKey t r.tax_id r.tax_name r.unique_name r.name_class)

/-- The healing loop over a precomputed worklist (the Python code
materialises `tax_ids` as a list before the loop). -/
def fixMissingPrimaryFrom : List NameRow → List String → Except HealFailure (List NameRow)
  | t, [] => Except.ok t
  | t, i :: rest =>
      match healOne t i with
      | Except.error e => Except.error e
      | Except.ok t2 => fixMissingPrimaryFrom t2 rest

/-- `fix_missing_primary` (ncbi.py lines 244-275). -/
def fix_missing_primary (t : List NameRow) : Except HealFailure (List NameRow) :=
  fixMissingPrimaryFrom t (missingPrimary t)

/-! ## Validity seeding (`mark_is_valid`, ncbi.py lines 277-285)

The statement executed is
`UPDATE nodes SET is_valid = (SELECT is_classified FROM names WHERE names.tax_id = tax_id)`.
Inside the scalar subquery the unqualified `tax_id` resolves to the
innermost table in scope, i.e. to `names.tax_id` itself, not to
`nodes.tax_id`; the `WHERE` clause is therefore a tautology (every
`names.tax_id` in this system is non-NULL) and the subquery returns the
`is_classified` of the *first* `names` row, independent of the node. -/

def markIsValidSubquery (names : List NameRow) : Option Int :=
  ((names.filter (fun r => r.tax_id == r.tax_id)).head?).bind
    (fun r => r.is_classified)

def mark_is_valid (nodes : List NodeRow) (names : List NameRow) : List NodeRow :=
  nodes.map (fun n => { n with is_valid := markIsValidSubquery names })

/-! ## Subtree validity propagation (`update_subtree_validity`, ncbi.py
lines 287-340) -/

/-- SQLite `ORDER BY` comparison on the nullable `is_valid` column:
`NULL` sorts before every integer. -/
def ltOptInt : Option Int → Option Int → Bool
  | none, none => false
  | none, some _ => true
  | some _, none => false
  | some a, some b => a < b

/-- The `below_rank_query` join (lines 327-332) before sorting: for each
node whose parent has the given rank, the pair
`(nodes.tax_id, pnodes.is_valid)`. -/
def joinBelowRank (t : List NodeRow) (rank : String) : List (String × Option Int) :=
  t.flatMap (fun n =>
    (t.filter (fun p => p.tax_id == n.parent_id && p.rank == rank)).map
      (fun p => (n.tax_id, p.is_valid)))

/-- `below_rank_query` with its `ORDER BY pnodes.is_valid`. -/
def belowRank (t : List NodeRow) (rank : String) : List (String × Option Int) :=
  sortBy (fun a b => ltOptInt a.2 b.2) (joinBelowRank t rank)

/-- `itertools.groupby` on the second component: consecutive runs of
pairs with equal `is_valid`, each run keeping its tax_ids in order. -/
def groupRuns : List (String × Option Int) → List (Option Int × List String)
  | [] => []
  | (i, v) :: rest =>
      match groupRuns rest with
      | (w, ids) :: gs =>
          if v = w then (v, i :: ids) :: gs else (v, [i]) :: (w, ids) :: gs
      | [] => [(v, [i])]

/-- One `UPDATE nodes SET is_valid = ? WHERE tax_id = ?`. -/
def updateNodeOne (t : List NodeRow) (taxId : String) (v : Option Int) : List NodeRow :=
  t.map (fun n => if n.tax_id == taxId then { n with is_valid := v } else n)

/-- `cursor.executemany` of that UPDATE over a list of tax_ids. -/
def updateNodeMany (t : List NodeRow) (taxIds : List String) (v : Option Int) :
    List NodeRow :=
  taxIds.foldl (fun acc i => updateNodeOne acc i v) t

/-- `SELECT tax_id FROM nodes WHERE parent_id IN (...)` for one chunk of
ids (the `IN` parameter list is `generate_in_param` applied to the
chunk). -/
def selectChildren (t : List NodeRow) (chunk : List String) : List String :=
  (t.filter (fun n => chunk.contains n.parent_id)).map (fun n => n.tax_id)

/-- The chunked child lookup of `mark_subtrees` (lines 315-323): the
frontier is split into chunks of 250 ids and the per-chunk query results
are chained. -/
def childrenChunked (t : List NodeRow) (toMark : List String) : List String :=
  (partition toMark 250).flatMap (fun c => selectChildren t c)

/-- Reference child lookup that queries the whole frontier at once. -/
def childrenUnchunked (t : List NodeRow) (toMark : List String) : List String :=
  selectChildren t toMark

/-- The `while to_mark:` loop of `mark_subtrees` (lines 309-323), with
explicit fuel for the recursion.  Note the loop body re-marks `tax_ids`
(the function argument) on every iteration — the generator passed to
`executemany` iterates `tax_ids`, not the current frontier `to_mark`. -/
def markSubtreesGo (taxIds : List String) (v : Option Int) :
    List NodeRow → List String → Nat → List NodeRow
  | t, _, 0 => t
  | t, toMark, fuel + 1 =>
      if toMark.isEmpty then t
      else
        let t2 := updateNodeMany t taxIds v
        markSubtreesGo taxIds v t2 (childrenChunked t2 toMark) fuel

/-- Same loop with the unchunked reference child lookup. -/
def markSubtreesGoUnchunked (taxIds : List String) (v : Option Int) :
    List NodeRow → List String → Nat → List NodeRow
  | t, _, 0 => t
  | t, toMark, fuel + 1 =>
      if toMark.isEmpty then t
      else
        let t2 := updateNodeMany t taxIds v
        markSubtreesGoUnchunked taxIds v t2 (childrenUnchunked t2 toMark) fuel

/-- `mark_subtrees(tax_ids, is_valid)`: `to_mark = list(tax_ids)` then
the loop.  The fuel `t.length + 2` is enough for every table whose
parent pointers form a tree (theorem on frontier termination below). -/
def mark_subtrees (t : List NodeRow) (taxIds : List String) (v : Option Int) :
    List NodeRow :=
  markSubtreesGo taxIds v t taxIds (t.length + 2)

/-- `update_subtree_validity(con, mark_below_rank)` (default rank
"species"): run `below_rank_query`, group consecutive rows by the
parent's `is_valid`, and call `mark_subtrees` for each group in turn. -/
def update_subtree_validity (t : List NodeRow) (markBelowRank : String) : List NodeRow :=
  (groupRuns (belowRank t markBelowRank)).foldl
    (fun acc g => mark_subtrees acc g.2 g.1) t

/-- The frontier after `k` expansion levels of the `mark_subtrees` loop
(children are looked up chunked, exactly as in the loop; updates leave
`tax_id`/`parent_id` untouched, so the table argument stays fixed). -/
def frontierIter (t : List NodeRow) : List String → Nat → List String
  | f, 0 => f
  | f, k + 1 => frontierIter t (childrenChunked t f) k

/-- `is_valid` of the node with the given tax_id (`NULL` if absent). -/
def getIsValid (t : List NodeRow) (taxId : String) : Option Int :=
  match t.find? (fun n => n.tax_id == taxId) with
  | some n => n.is_valid
  | none => none

/-! ## `UNCLASSIFIED_REGEX` (ncbi.py lines 130-174)

The regex is an alternation of the listed patterns.  Each alternative
uses only literal characters, character classes (`[Al]`, `[Bb]`,
`[Gg]`, `[Pp]`), `\d`, and the word-boundary assertion `\b`, so it is
embedded as a token-list matcher.  Inner alternations `(um|a)` are
expanded into separate top-level alternatives, which preserves the
semantics of `re.search`.  Two of the Python source strings are
adjacent literals that concatenate: `'Taxon' '\d\d'` is the single
pattern `Taxon\d\d`, and `r'str\.' 'strain'` is `str\.strain`. -/

inductive RTok where
  | lit (c : Char)
  | cls (cs : List Char)
  | digit
  | bnd
deriving DecidableEq, Repr

def isWordChar (c : Char) : Bool := c.isAlphanum || c == '_'

/-- Match a token list at the start of `s`; `prev` is the character just
before `s` (for `\b`). -/
def rMatch : List RTok → Option Char → List Char → Bool
  | [], _, _ => true
  | RTok.bnd :: ps, prev, s =>
      let pw := match prev with | some c => isWordChar c | none => false
      let nw := match s with | c :: _ => isWordChar c | [] => false
      if pw ≠ nw then rMatch ps prev s else false
  | RTok.lit c :: ps, _, x :: xs => x == c && rMatch ps (some x) xs
  | RTok.lit _ :: _, _, [] => false
  | RTok.cls cs :: ps, _, x :: xs => cs.contains x && rMatch ps (some x) xs
  | RTok.cls _ :: _, _, [] => false
  | RTok.digit :: ps, _, x :: xs => x.isDigit && rMatch ps (some x) xs
  | RTok.digit :: _, _, [] => false

/-- `re.search`: try to match at every position. -/
def rSearchAux (p : List RTok) (prev : Option Char) : List Char → Bool
  | [] => rMatch p prev []
  | c :: cs => rMatch p prev (c :: cs) || rSearchAux p (some c) cs

def rSearch (p : List RTok) (s : List Char) : Bool := rSearchAux p none s

def litToks (s : String) : List RTok := s.data.map RTok.lit

def unclassifiedPatterns : List (List RTok) := [
  litToks "-like",
  litToks "Taxon" ++ [RTok.digit, RTok.digit],
  litToks "acidophile",
  litToks "actinobacterium",
  litToks "aerobic",
  [RTok.bnd, RTok.cls ['A', 'l']] ++ litToks "gum" ++ [RTok.bnd],
  [RTok.bnd, RTok.cls ['A', 'l']] ++ litToks "ga" ++ [RTok.bnd],
  [RTok.bnd, RTok.cls ['B', 'b']] ++ litToks "acterium",
  [RTok.bnd, RTok.cls ['B', 'b']] ++ litToks "acteria",
  litToks "Barophile",
  litToks "cyanobacterium",
  litToks "Chloroplast",
  litToks "Cloning",
  litToks "cluster",
  litToks "-containing",
  litToks "epibiont",
  litToks "eubacterium",
  [RTok.bnd, RTok.cls ['G', 'g']] ++ litToks "roup" ++ [RTok.bnd],
  litToks "halophilic",
  litToks "hydrothermal" ++ [RTok.bnd],
  litToks "isolate",
  litToks "marine",
  litToks "methanotroph",
  litToks "microorganism",
  litToks "mollicute",
  litToks "pathogen",
  [RTok.cls ['P', 'p']] ++ litToks "hytoplasma",
  litToks "proteobacterium",
  litToks "putative",
  [RTok.bnd] ++ litToks "sp.",
  litToks "species",
  litToks "spirochete",
  litToks "str.strain",
  litToks "symbiont",
  litToks "taxon",
  litToks "unicellular",
  litToks "uncultured",
  litToks "unclassified",
  litToks "unidentified",
  litToks "unknown",
  litToks "vector" ++ [RTok.bnd],
  litToks "vent" ++ [RTok.bnd]]

/-- `UNCLASSIFIED_REGEX.search(s)` as a Boolean. -/
def unclassifiedSearch (s : String) : Bool :=
  unclassifiedPatterns.any (fun p => rSearch p s.data)

/-! ## `read_names` (ncbi.py lines 446-495) -/

/-- A raw row of `names.dmp`: tax_id, tax_name, unique_name, name_class. -/
structure RawNameRow where
  tax_id : String
  tax_name : String
  unique_name : String
  name_class : String
deriving DecidableEq, Repr

/-- Python `str.strip()`: remove leading and trailing whitespace. -/
def stripChars (s : List Char) : List Char :=
  ((s.dropWhile Char.isWhitespace).reverse.dropWhile Char.isWhitespace).reverse

/-- `row[unique_name].split('<')[0]`: the part before the first `<`
(the whole string when no `<` occurs). -/
def beforeLt (s : List Char) : List Char := s.takeWhile (fun c => c ≠ '<')

/-- `_is_primary(row)` (lines 464-479). -/
def isPrimaryOfRow (r : RawNameRow) : Int :=
  if r.name_class ≠ "scientific name" then 0
  else if r.unique_name = "" then 1
  else if r.tax_name.data = stripChars (beforeLt r.unique_name.data) then 1
  else 0

/-- `_is_classified(row)` (lines 482-489) when a regex is supplied, as
in `db_load`: 0 if the regex matches anywhere in `tax_name`, else 1.
(The docstring's restriction to the first two words is *not* in the
code.) -/
def isClassifiedOfRow (r : RawNameRow) : Int :=
  if unclassifiedSearch r.tax_name then 0 else 1

/-- `read_names(rows, unclassified_regex=UNCLASSIFIED_REGEX)`: append
`is_primary` and `is_classified` to every row. -/
def read_names (rows : List RawNameRow) : List NameRow :=
  rows.map (fun r =>
    { tax_id := r.tax_id, tax_name := r.tax_name,
      unique_name := r.unique_name, name_class := r.name_class,
      is_primary := isPrimaryOfRow r,
      is_classified := some (isClassifiedOfRow r) })

/-- Python `str.split()` with no argument: split on runs of whitespace,
discarding empty words. -/
def wordsOf (s : List Char) : List (List Char) :=
  (s.splitOnP Char.isWhitespace).filter (fun w => w ≠ [])

/-- The first two whitespace-delimited words of a string. -/
def firstTwoWords (s : String) : List (List Char) := (wordsOf s.data).take 2

/-! ## GreenGenes `_add_space` (greengenes.py lines 48-55)

`species[l]` for `l = len(genus)` raises `IndexError` when the index is
out of range; the result is therefore an `Option`, with `none` for the
raised exception.  Python evaluates the conjunction left to right, so
the index is only accessed when `species.startswith(genus)`. -/

def addSpace (species genus : List Char) : Option (List Char) :=
  if genus.isPrefixOf species then
    match species[genus.length]? with
    | none => none
    | some c =>
        if c ≠ ' ' then
          some (species.take genus.length ++ [' '] ++ species.drop genus.length)
        else some species
  else some species

/-! ## Derived characterisations and concrete instances -/

/-- Derived characterisation (not itself source code, proved equal to it
below): the effect of one healing iteration on the rows of the healed
tax_id, as a per-row function determined by the candidate row list. -/
def healRowFn (records : List NameRow) : NameRow → NameRow :=
  if (records.filter (fun r => r.name_class == "scientific name")).length = 1 then
    fun s => if s.name_class == "scientific name" then { s with is_primary := 1 } else s
  else
    match records with
    | [] => id
    | r0 :: _ =>
        fun s =>
          if s.tax_name == r0.tax_name && s.unique_name == r0.unique_name &&
              s.name_class == r0.name_class then { s with is_primary := 1 } else s

/-- Number of `is_primary = 1` name rows of one tax_id. -/
def countPrimaryRows (t : List NameRow) (i : String) : Nat :=
  ((rowsForTaxId t i).filter (fun r => r.is_primary == 1)).length

/-- Nodes table for the propagation scenarios: a root, a species node
seeded invalid, its child, and a grandchild, both seeded valid. -/
def exNodesProp : List NodeRow := [
  { tax_id := "1", parent_id := "1", rank := "root", is_valid := some 1 },
  { tax_id := "2", parent_id := "1", rank := "species", is_valid := some 0 },
  { tax_id := "3", parent_id := "2", rank := "subspecies", is_valid := some 1 },
  { tax_id := "4", parent_id := "3", rank := "no_rank", is_valid := some 1 }]

/-- Depth of each node of `exNodesProp` in its parent-pointer tree. -/
def exDepth (s : String) : Nat :=
  if s = "1" then 0 else if s = "2" then 1 else if s = "3" then 2
  else if s = "4" then 3 else 0

/-- Two-node table for the seeding scenario. -/
def exNodesSeed : List NodeRow := [
  { tax_id := "1", parent_id := "1", rank := "root", is_valid := some 1 },
  { tax_id := "2", parent_id := "1", rank := "species", is_valid := some 1 }]

/-- Names for the seeding scenario: node 1 has a classified primary name,
node 2 an unclassified one (its `is_classified` as computed by
`read_names`). -/
def exNamesSeed : List NameRow := [
  { tax_id := "1", tax_name := "Bacillus subtilis", unique_name := "",
    name_class := "scientific name", is_primary := 1, is_classified := some 1 },
  { tax_id := "2", tax_name := "uncultured bacterium", unique_name := "",
    name_class := "scientific name", is_primary := 1, is_classified := some 0 }]

/-- Spec scenario 4: tax_id 7 with an unpromoted scientific name and a
synonym. -/
def exNamesHeal : List NameRow := [
  { tax_id := "7", tax_name := "X", unique_name := "",
    name_class := "scientific name", is_primary := 0, is_classified := some 1 },
  { tax_id := "7", tax_name := "X syn", unique_name := "",
    name_class := "synonym", is_primary := 0, is_classified := some 1 }]

/-- `exNamesHeal` after healing: the scientific-name row was promoted. -/
def exNamesHealAfter : List NameRow := [
  { tax_id := "7", tax_name := "X", unique_name := "",
    name_class := "scientific name", is_primary := 1, is_classified := some 1 },
  { tax_id := "7", tax_name := "X syn", unique_name := "",
    name_class := "synonym", is_primary := 0, is_classified := some 1 }]

/-- A tax_id that already has two `is_primary = 1` rows before healing. -/
def exNamesTwoPrimaries : List NameRow := [
  { tax_id := "7", tax_name := "X", unique_name := "",
    name_class := "scientific name", is_primary := 1, is_classified := some 1 },
  { tax_id := "7", tax_name := "X2", unique_name := "",
    name_class := "synonym", is_primary := 1, is_classified := some 1 }]

/-- A tax_id with two synonym rows and no primary: healing falls back to
`records[0]`. -/
def exNamesFallback : List NameRow := [
  { tax_id := "8", tax_name := "Y", unique_name := "",
    name_class := "synonym", is_primary := 0, is_classified := some 1 },
  { tax_id := "8", tax_name := "Z", unique_name := "",
    name_class := "synonym", is_primary := 0, is_classified := some 1 }]

/-- `exNamesFallback` after healing: only `records[0]` was promoted. -/
def exNamesFallbackAfter : List NameRow := [
  { tax_id := "8", tax_name := "Y", unique_name := "",
    name_class := "synonym", is_primary := 1, is_classified := some 1 },
  { tax_id := "8", tax_name := "Z", unique_name := "",
    name_class := "synonym", is_primary := 0, is_classified := some 1 }]

/-- One tax_id with a single unpromoted scientific name row. -/
def exNamesIdem : List NameRow := [
  { tax_id := "9", tax_name := "W", unique_name := "",
    name_class := "scientific name", is_primary := 0, is_classified := some 1 }]

/-- `exNamesIdem` after healing. -/
def exNamesIdemAfter : List NameRow := [
  { tax_id := "9", tax_name := "W", unique_name := "",
    name_class := "scientific name", is_primary := 1, is_classified := some 1 }]

/-- Raw `names.dmp` rows whose tax_names agree on their first two
whitespace-delimited words. -/
def exRawTwoWordsA : RawNameRow :=
  { tax_id := "1", tax_name := "Escherichia coli", unique_name := "",
    name_class := "scientific name" }

def exRawTwoWordsB : RawNameRow :=
  { tax_id := "2", tax_name := "Escherichia coli uncultured", unique_name := "",
    name_class := "scientific name" }

/-- A frontier of 600 distinct ids. -/
def strings600 : List String := (List.range 600).map (fun n => toString n)

/-! ## Lemmas about `dedupFirst` and `missingPrimary` -/

theorem mem_dedupFirstAux {x : String} :
    ∀ (l : List String) (seen : List String),
      x ∈ dedupFirstAux seen l ↔ x ∈ l ∧ x ∉ seen := by
  intro l
  induction l with
  | nil => intro seen; simp [dedupFirstAux]
  | cons y ys ih =>
    intro seen
    simp only [dedupFirstAux]
    by_cases hy : y ∈ seen
    · rw [if_pos (List.elem_iff.mpr hy), ih]
      simp only [List.mem_cons]
      constructor
      · rintro ⟨h1, h2⟩
        exact ⟨Or.inr h1, h2⟩
      · rintro ⟨h1 | h1, h2⟩
        · exact absurd (h1 ▸ hy) h2
        · exact ⟨h1, h2⟩
    · rw [if_neg (fun hc => hy (List.elem_iff.mp hc)), List.mem_cons, List.mem_cons, ih]
      constructor
      · rintro (rfl | ⟨h1, h2⟩)
        · exact ⟨Or.inl rfl, hy⟩
        · refine ⟨Or.inr h1, fun hx => h2 (List.mem_cons_of_mem _ hx)⟩
      · rintro ⟨h1 | h1, h2⟩
        · exact Or.inl h1
        · by_cases hxy : x = y
          · exact Or.inl hxy
          · refine Or.inr ⟨h1, ?_⟩
            intro hx
            rcases List.mem_cons.mp hx with h | h
            · exact hxy h
            · exact h2 h

theorem mem_dedupFirst {x : String} {l : List String} :
    x ∈ dedupFirst l ↔ x ∈ l := by
  unfold dedupFirst
  rw [mem_dedupFirstAux]
  simp

theorem nodup_dedupFirstAux :
    ∀ (l : List String) (seen : List String), (dedupFirstAux seen l).Nodup := by
  intro l
  induction l with
  | nil => intro seen; simp [dedupFirstAux]
  | cons y ys ih =>
    intro seen
    simp only [dedupFirstAux]
    by_cases hy : seen.contains y = true
    · rw [if_pos hy]; exact ih seen
    · rw [if_neg hy]
      refine List.Nodup.cons ?_ (ih (y :: seen))
      intro hmem
      have := (mem_dedupFirstAux _ _).mp hmem
      exact this.2 (List.mem_cons_self _ _)

theorem nodup_missingPrimary (t : List NameRow) : (missingPrimary t).Nodup :=
  List.Nodup.filter _ (nodup_dedupFirstAux _ [])

theorem mem_missingPrimary {t : List NameRow} {i : String} :
    i ∈ missingPrimary t ↔
      (∃ r ∈ t, r.tax_id = i) ∧ sumPrimary (rowsForTaxId t i) = 0 := by
  unfold missingPrimary
  rw [List.mem_filter, mem_dedupFirst, List.mem_map]
  constructor
  · rintro ⟨⟨r, hr, rfl⟩, hsum⟩
    exact ⟨⟨r, hr, rfl⟩, by simpa using hsum⟩
  · rintro ⟨⟨r, hr, rfl⟩, hsum⟩
    exact ⟨⟨r, hr, rfl⟩, by simpa using hsum⟩

theorem rowsForTaxId_ne_nil_of_mem_missingPrimary {t : List NameRow} {i : String}
    (h : i ∈ missingPrimary t) : rowsForTaxId t i ≠ [] := by
  rcases (mem_missingPrimary.mp h).1 with ⟨r, hr, hri⟩
  intro hnil
  have : r ∈ rowsForTaxId t i := by
    simp [rowsForTaxId, List.mem_filter, hr, hri]
  rw [hnil] at this
  cases this

/-! ## Lemmas about the name-table updates -/

/-- `rowsForTaxId` commutes with a row map that preserves `tax_id`. -/
theorem rowsForTaxId_map (f : NameRow → NameRow)
    (hf : ∀ r, (f r).tax_id = r.tax_id) (t : List NameRow) (i : String) :
    rowsForTaxId (t.map f) i = (rowsForTaxId t i).map f := by
  unfold rowsForTaxId
  rw [List.filter_map]
  congr 1
  apply List.filter_congr
  intro r _
  simp [Function.comp, hf]

theorem mem_rowsForTaxId {t : List NameRow} {i : String} {r : NameRow} :
    r ∈ rowsForTaxId t i ↔ r ∈ t ∧ r.tax_id = i := by
  simp [rowsForTaxId, List.mem_filter]

theorem rowsFor_updateByClass_other {t : List NameRow} {j i c : String} (hij : j ≠ i) :
    rowsForTaxId (updateByClass t j c) i = rowsForTaxId t i := by
  unfold updateByClass
  rw [rowsForTaxId_map _ (fun r => by split <;> rfl)]
  conv_rhs => rw [← List.map_id (rowsForTaxId t i)]
  apply List.map_congr_left
  intro r hr
  have hri : r.tax_id = i := (mem_rowsForTaxId.mp hr).2
  have : (r.tax_id == j) = false := by
    simp [hri]; exact fun h => hij h.symm
  simp [this]

theorem rowsFor_updateByClass_self {t : List NameRow} {i c : String} :
    rowsForTaxId (updateByClass t i c) i =
      (rowsForTaxId t i).map
        (fun r => if r.name_class == c then { r with is_primary := 1 } else r) := by
  unfold updateByClass
  rw [rowsForTaxId_map _ (fun r => by split <;> rfl)]
  apply List.map_congr_left
  intro r hr
  have hri : r.tax_id = i := (mem_rowsForTaxId.mp hr).2
  simp [hri]

theorem rowsFor_updateByFullKey_other {t : List NameRow} {j i tn un nc : String}
    (hij : j ≠ i) :
    rowsForTaxId (updateByFullKey t j tn un nc) i = rowsForTaxId t i := by
  unfold updateByFullKey
  rw [rowsForTaxId_map _ (fun r => by split <;> rfl)]
  conv_rhs => rw [← List.map_id (rowsForTaxId t i)]
  apply List.map_congr_left
  intro r hr
  have hri : r.tax_id = i := (mem_rowsForTaxId.mp hr).2
  have : (r.tax_id == j) = false := by
    simp [hri]; exact fun h => hij h.symm
  simp [this]

theorem rowsFor_updateByFullKey_self {t : List NameRow} {i tn un nc : String} :
    rowsForTaxId (updateByFullKey t i tn un nc) i =
      (rowsForTaxId t i).map
        (fun r => if r.tax_name == tn && r.unique_name == un && r.name_class == nc then
          { r with is_primary := 1 } else r) := by
  unfold updateByFullKey
  rw [rowsForTaxId_map _ (fun r => by split <;> rfl)]
  apply List.map_congr_left
  intro r hr
  have hri : r.tax_id = i := (mem_rowsForTaxId.mp hr).2
  simp [hri, Bool.and_assoc]

/-! ## The effect of one healing iteration -/

theorem healOne_nil {t : List NameRow} {i : String} (h : rowsForTaxId t i = []) :
    healOne t i = Except.error HealFailure.indexFailure := by
  simp [healOne, h]

theorem healOne_effect {t : List NameRow} {i : String}
    (hne : rowsForTaxId t i ≠ []) :
    ∃ t2, healOne t i = Except.ok t2 ∧
      rowsForTaxId t2 i = (rowsForTaxId t i).map (healRowFn (rowsForTaxId t i)) ∧
      ∀ j, j ≠ i → rowsForTaxId t2 j = rowsForTaxId t j := by
  by_cases hsci :
      ((rowsForTaxId t i).filter (fun r => r.name_class == "scientific name")).length = 1
  · -- exactly one scientific-name candidate: both UPDATE statements run
    have hfind : ∃ r, (rowsForTaxId t i).find?
        (fun r => r.name_class == "scientific name") = some r := by
      have : ((rowsForTaxId t i).filter
          (fun r => r.name_class == "scientific name")) ≠ [] := by
        intro hnil; rw [hnil] at hsci; simp at hsci
      rcases List.exists_mem_of_ne_nil _ this with ⟨r, hr⟩
      have hrmem := List.mem_filter.mp hr
      have hsome : ((rowsForTaxId t i).find?
          (fun r => r.name_class == "scientific name")).isSome := by
        rw [List.find?_isSome]
        exact ⟨r, hrmem.1, hrmem.2⟩
      rcases Option.isSome_iff_exists.mp hsome with ⟨r2, hr2⟩
      exact ⟨r2, hr2⟩
    rcases hfind with ⟨r, hfind⟩
    have hrmem : r ∈ rowsForTaxId t i := List.mem_of_find?_eq_some hfind
    have hrsci : r.name_class = "scientific name" := by
      have := List.find?_some hfind
      simpa using this
    have hrtax : r.tax_id = i := (mem_rowsForTaxId.mp hrmem).2
    refine ⟨updateByFullKey (updateByClass t i "scientific name")
      r.tax_id r.tax_name r.unique_name r.name_class, ?_, ?_, ?_⟩
    · simp only [healOne]
      rw [if_pos hsci, hfind]
    · rw [hrtax, rowsFor_updateByFullKey_self, rowsFor_updateByClass_self,
        List.map_map]
      apply List.map_congr_left
      intro s _
      simp only [Function.comp, healRowFn, if_pos hsci]
      by_cases hs : s.name_class = "scientific name"
      · have hb : (s.name_class == "scientific name") = true := by simp [hs]
        simp only [hb, if_true]
        by_cases hkey : (s.tax_name == r.tax_name && s.unique_name == r.unique_name &&
            s.name_class == r.name_class) = true
        · simp [hkey]
        · simp [hkey]
      · have hb : (s.name_class == "scientific name") = false := by simp [hs]
        have hkey : (s.tax_name == r.tax_name && s.unique_name == r.unique_name &&
            s.name_class == r.name_class) = false := by
          rw [hrsci]
          simp only [Bool.and_eq_false_iff]
          right
          simp [hs]
        simp [hb, hkey]
    · intro j hj
      rw [hrtax, rowsFor_updateByFullKey_other (fun h => hj h.symm),
        rowsFor_updateByClass_other (fun h => hj h.symm)]
  · -- zero or several scientific-name candidates: records[0] is promoted
    rcases List.exists_cons_of_ne_nil hne with ⟨r0, rest, hrec⟩
    have hr0mem : r0 ∈ rowsForTaxId t i := by rw [hrec]; exact List.mem_cons_self _ _
    have hr0tax : r0.tax_id = i := (mem_rowsForTaxId.mp hr0mem).2
    refine ⟨updateByFullKey t r0.tax_id r0.tax_name r0.unique_name r0.name_class,
      ?_, ?_, ?_⟩
    · simp only [healOne]
      rw [if_neg hsci, hrec]
    · rw [hr0tax, rowsFor_updateByFullKey_self, hrec]
      apply List.map_congr_left
      intro s _
      rw [hrec] at hsci
      simp only [healRowFn, if_neg hsci]
    · intro j hj
      rw [hr0tax, rowsFor_updateByFullKey_other (fun h => hj h.symm)]

/-- Healing one tax_id never removes rows of any tax_id. -/
theorem healOne_preserves_rows {t t2 : List NameRow} {i : String}
    (h : healOne t i = Except.ok t2) :
    ∀ j, (rowsForTaxId t2 j).length = (rowsForTaxId t j).length := by
  by_cases hne : rowsForTaxId t i = []
  · rw [healOne_nil hne] at h; cases h
  · rcases healOne_effect hne with ⟨t3, hok, hself, hother⟩
    rw [hok] at h
    injection h with h; subst h
    intro j
    by_cases hj : j = i
    · subst hj; rw [hself, List.length_map]
    · rw [hother j hj]

/-! ## The healing loop over the whole worklist -/

theorem fixFrom_ok :
    ∀ (w : List String) (t : List NameRow),
      (∀ i ∈ w, rowsForTaxId t i ≠ []) →
      ∃ t2, fixMissingPrimaryFrom t w = Except.ok t2 ∧
        ∀ j, (rowsForTaxId t2 j).length = (rowsForTaxId t j).length := by
  intro w
  induction w with
  | nil => intro t _; exact ⟨t, rfl, fun j => rfl⟩
  | cons j rest ih =>
    intro t hw
    have hne : rowsForTaxId t j ≠ [] := hw j (List.mem_cons_self _ _)
    rcases healOne_effect hne with ⟨t3, hok3, _, _⟩
    have hlen3 := healOne_preserves_rows hok3
    have hw3 : ∀ i ∈ rest, rowsForTaxId t3 i ≠ [] := by
      intro i hi hnil
      have := hlen3 i
      rw [hnil] at this
      exact hw i (List.mem_cons_of_mem _ hi)
        (List.eq_nil_of_length_eq_zero this.symm)
    rcases ih t3 hw3 with ⟨t2, hok2, hlen2⟩
    refine ⟨t2, ?_, fun j2 => (hlen2 j2).trans (hlen3 j2)⟩
    simp only [fixMissingPrimaryFrom, hok3]
    exact hok2

theorem fixFrom_effect :
    ∀ (w : List String) (t t2 : List NameRow), w.Nodup →
      fixMissingPrimaryFrom t w = Except.ok t2 →
      ∀ i, rowsForTaxId t2 i =
        if i ∈ w then (rowsForTaxId t i).map (healRowFn (rowsForTaxId t i))
        else rowsForTaxId t i := by
  intro w
  induction w with
  | nil =>
    intro t t2 _ hok i
    simp only [fixMissingPrimaryFrom] at hok
    injection hok with hok
    subst hok
    simp
  | cons j rest ih =>
    intro t t2 hnd hok i
    simp only [fixMissingPrimaryFrom] at hok
    cases hh : healOne t j with
    | error e => simp only [hh] at hok; cases hok
    | ok t4 =>
      simp only [hh] at hok
      have hne : rowsForTaxId t j ≠ [] := by
        intro h; rw [healOne_nil h] at hh; cases hh
      rcases healOne_effect hne with ⟨t3, hok3, hself, hother⟩
      have ht : t4 = t3 := by
        rw [hok3] at hh
        injection hh with h
        exact h.symm
      subst ht
      have ihi := ih t4 t2 (List.Nodup.of_cons hnd) hok i
      by_cases hij : i = j
      · subst hij
        have hnotin : i ∉ rest := (List.nodup_cons.mp hnd).1
        rw [if_neg hnotin] at ihi
        rw [ihi, hself]
        simp
      · rw [hother i (fun h => hij h)] at ihi
        by_cases hin : i ∈ rest
        · rw [if_pos hin] at ihi
          rw [ihi, if_pos (List.mem_cons_of_mem _ hin)]
        · rw [if_neg hin] at ihi
          rw [ihi, if_neg (fun h => by
            rcases List.mem_cons.mp h with h | h
            · exact hij h
            · exact hin h)]

/-- `fix_missing_primary` always terminates normally: every tax_id of
the worklist has at least one candidate row, because the worklist is
computed from the same `names` table. -/
theorem fix_missing_primary_ok (t : List NameRow) :
    ∃ t2, fix_missing_primary t = Except.ok t2 := by
  rcases fixFrom_ok (missingPrimary t) t
    (fun i hi => rowsForTaxId_ne_nil_of_mem_missingPrimary hi) with ⟨t2, hok, _⟩
  exact ⟨t2, hok⟩

/-- Per-tax_id description of the healed table. -/
theorem fix_missing_primary_effect {t t2 : List NameRow}
    (hok : fix_missing_primary t = Except.ok t2) (i : String) :
    rowsForTaxId t2 i =
      if i ∈ missingPrimary t then
        (rowsForTaxId t i).map (healRowFn (rowsForTaxId t i))
      else rowsForTaxId t i :=
  fixFrom_effect (missingPrimary t) t t2 (nodup_missingPrimary t) hok i

/-! ## Sums of 0/1 `is_primary` values -/

theorem sumPrimary_cons (r : NameRow) (rs : List NameRow) :
    sumPrimary (r :: rs) = r.is_primary + sumPrimary rs := by
  simp [sumPrimary]

theorem sumPrimary_nonneg {rs : List NameRow}
    (hwf : ∀ r ∈ rs, r.is_primary = 0 ∨ r.is_primary = 1) :
    0 ≤ sumPrimary rs := by
  induction rs with
  | nil => simp [sumPrimary]
  | cons r rs ih =>
    rw [sumPrimary_cons]
    have h1 := hwf r (List.mem_cons_self _ _)
    have h2 := ih (fun s hs => hwf s (List.mem_cons_of_mem _ hs))
    rcases h1 with h1 | h1 <;> omega

theorem sumPrimary_eq_zero_iff {rs : List NameRow}
    (hwf : ∀ r ∈ rs, r.is_primary = 0 ∨ r.is_primary = 1) :
    sumPrimary rs = 0 ↔ ∀ r ∈ rs, r.is_primary = 0 := by
  induction rs with
  | nil => simp [sumPrimary]
  | cons r rs ih =>
    rw [sumPrimary_cons]
    have h1 := hwf r (List.mem_cons_self _ _)
    have hrest := fun s hs => hwf s (List.mem_cons_of_mem _ hs)
    have h2 := sumPrimary_nonneg hrest
    rw [List.forall_mem_cons, ← ih hrest]
    rcases h1 with h1 | h1 <;> rw [h1] <;> omega

theorem sumPrimary_ne_zero_of_one {rs : List NameRow}
    (hwf : ∀ r ∈ rs, r.is_primary = 0 ∨ r.is_primary = 1)
    (hone : ∃ r ∈ rs, r.is_primary = 1) : sumPrimary rs ≠ 0 := by
  intro hzero
  have hall := (sumPrimary_eq_zero_iff hwf).mp hzero
  rcases hone with ⟨r, hr, h1⟩
  rw [hall r hr] at h1
  cases h1

/-! ## Counting primaries after one healing iteration -/

theorem healRowFn_preserves_01 {records : List NameRow}
    (hwf : ∀ r ∈ records, r.is_primary = 0 ∨ r.is_primary = 1) :
    ∀ s ∈ records, (healRowFn records s).is_primary = 0 ∨
      (healRowFn records s).is_primary = 1 := by
  intro s hs
  unfold healRowFn
  split
  · by_cases h : (s.name_class == "scientific name") = true
    · simp [h]
    · simpa [h] using hwf s hs
  · split
    · exact hwf s hs
    · rename_i r0 rest _
      by_cases h : (s.tax_name == r0.tax_name && s.unique_name == r0.unique_name &&
          s.name_class == r0.name_class) = true
      · simp [h]
      · simpa [h] using hwf s hs

theorem healRowFn_exists_one {records : List NameRow} (hne : records ≠ []) :
    ∃ s ∈ records, (healRowFn records s).is_primary = 1 := by
  unfold healRowFn
  by_cases hsci : (records.filter (fun r => r.name_class == "scientific name")).length = 1
  · have hfne : records.filter (fun r => r.name_class == "scientific name") ≠ [] := by
      intro h; rw [h] at hsci; simp at hsci
    rcases List.exists_mem_of_ne_nil _ hfne with ⟨s, hsmem⟩
    have hs := List.mem_filter.mp hsmem
    refine ⟨s, hs.1, ?_⟩
    rw [if_pos hsci]
    simp only [hs.2, if_true]
  · rcases List.exists_cons_of_ne_nil hne with ⟨r0, rest, hrec⟩
    refine ⟨r0, by rw [hrec]; exact List.mem_cons_self _ _, ?_⟩
    rw [if_neg hsci, hrec]
    simp

theorem count_healed_sci {records : List NameRow}
    (h0 : ∀ r ∈ records, r.is_primary = 0)
    (hsci : (records.filter (fun r => r.name_class == "scientific name")).length = 1) :
    ((records.map (healRowFn records)).filter (fun r => r.is_primary == 1)).length = 1 := by
  rw [List.filter_map, List.length_map]
  have : records.filter (fun r => (healRowFn records r).is_primary == 1) =
      records.filter (fun r => r.name_class == "scientific name") := by
    apply List.filter_congr
    intro s hs
    simp only [healRowFn, if_pos hsci]
    by_cases h : (s.name_class == "scientific name") = true
    · simp [h]
    · simp [h, h0 s hs]
  rw [show (fun r => r.is_primary == 1) ∘ healRowFn records =
    (fun r => (healRowFn records r).is_primary == 1) from rfl, this, hsci]

theorem count_healed_fallback {records : List NameRow} {r0 : NameRow}
    {rest : List NameRow}
    (h0 : ∀ r ∈ records, r.is_primary = 0)
    (hrec : records = r0 :: rest)
    (hsci : ¬ (records.filter (fun r => r.name_class == "scientific name")).length = 1)
    (hdist : records.Pairwise (fun a b => ¬(a.tax_name = b.tax_name ∧
      a.unique_name = b.unique_name ∧ a.name_class = b.name_class))) :
    ((records.map (healRowFn records)).filter (fun r => r.is_primary == 1)).length = 1 := by
  subst hrec
  rw [List.filter_map, List.length_map]
  have heq : (r0 :: rest).filter
        (fun r => (healRowFn (r0 :: rest) r).is_primary == 1) =
      (r0 :: rest).filter (fun s => s.tax_name == r0.tax_name &&
        s.unique_name == r0.unique_name && s.name_class == r0.name_class) := by
    apply List.filter_congr
    intro s hs
    simp only [healRowFn, if_neg hsci]
    by_cases h : (s.tax_name == r0.tax_name && s.unique_name == r0.unique_name &&
        s.name_class == r0.name_class) = true
    · simp [h]
    · simp [h, h0 s hs]
  rw [show (fun r => r.is_primary == 1) ∘ healRowFn (r0 :: rest) =
    (fun r => (healRowFn (r0 :: rest) r).is_primary == 1) from rfl, heq]
  rw [List.filter_cons]
  have hr0 : (r0.tax_name == r0.tax_name && r0.unique_name == r0.unique_name &&
      r0.name_class == r0.name_class) = true := by simp
  rw [if_pos hr0]
  have hrest : rest.filter (fun s => s.tax_name == r0.tax_name &&
      s.unique_name == r0.unique_name && s.name_class == r0.name_class) = [] := by
    rw [List.filter_eq_nil_iff]
    intro s hsmem hkey
    have hpw := (List.pairwise_cons.mp hdist).1 s hsmem
    apply hpw
    simp only [Bool.and_eq_true, beq_iff_eq] at hkey
    exact ⟨hkey.1.1.symm, hkey.1.2.symm, hkey.2.symm⟩
  rw [hrest]
  rfl

/-! ## Lemmas about the propagation frontier -/

theorem partition_flatten_pos {n : Nat} (hn : 0 < n) (l : List α) :
    (partition l n).flatten = l := by
  cases n with
  | zero => omega
  | succ s => exact partition_join s l

theorem mem_selectChildren {t : List NodeRow} {chunk : List String} {x : String} :
    x ∈ selectChildren t chunk ↔
      ∃ n, n ∈ t ∧ n.tax_id = x ∧ n.parent_id ∈ chunk := by
  simp only [selectChildren, List.mem_map, List.mem_filter]
  constructor
  · rintro ⟨n, ⟨hn, hc⟩, hx⟩
    exact ⟨n, hn, hx, List.elem_iff.mp hc⟩
  · rintro ⟨n, hn, hx, hp⟩
    exact ⟨n, ⟨hn, List.elem_iff.mpr hp⟩, hx⟩

theorem mem_childrenChunked {t : List NodeRow} {toMark : List String} {x : String} :
    x ∈ childrenChunked t toMark ↔
      ∃ n, n ∈ t ∧ n.tax_id = x ∧ n.parent_id ∈ toMark := by
  unfold childrenChunked
  rw [List.mem_flatMap]
  constructor
  · rintro ⟨c, hc, hx⟩
    rcases mem_selectChildren.mp hx with ⟨n, hn, hnx, hp⟩
    refine ⟨n, hn, hnx, ?_⟩
    have hm : n.parent_id ∈ (partition toMark 250).flatten :=
      List.mem_flatten.mpr ⟨c, hc, hp⟩
    rwa [partition_flatten_pos (by norm_num)] at hm
  · rintro ⟨n, hn, hnx, hp⟩
    have hm : n.parent_id ∈ (partition toMark 250).flatten := by
      rw [partition_flatten_pos (by norm_num)]; exact hp
    rcases List.mem_flatten.mp hm with ⟨c, hc, hpc⟩
    exact ⟨c, hc, mem_selectChildren.mpr ⟨n, hn, hnx, hpc⟩⟩

theorem selectChildren_updateNodeOne {t : List NodeRow} {j : String} {v : Option Int}
    {c : List String} :
    selectChildren (updateNodeOne t j v) c = selectChildren t c := by
  unfold selectChildren updateNodeOne
  rw [List.filter_map, List.map_map]
  have h1 : t.filter (fun r =>
      c.contains ((if r.tax_id == j then { r with is_valid := v } else r).parent_id)) =
      t.filter (fun r => c.contains r.parent_id) := by
    apply List.filter_congr
    intro r _
    congr 1
    split <;> rfl
  have h2 : ∀ l : List NodeRow, l.map (fun r =>
      (if r.tax_id == j then { r with is_valid := v } else r).tax_id) =
      l.map (fun r => r.tax_id) := by
    intro l
    apply List.map_congr_left
    intro r _
    split <;> rfl
  calc (t.filter fun r =>
        c.contains ((if r.tax_id == j then { r with is_valid := v } else r).parent_id)).map
          (fun r => (if r.tax_id == j then { r with is_valid := v } else r).tax_id)
      = (t.filter (fun r => c.contains r.parent_id)).map
          (fun r => (if r.tax_id == j then { r with is_valid := v } else r).tax_id) := by
        rw [h1]
    _ = (t.filter (fun r => c.contains r.parent_id)).map (fun r => r.tax_id) := h2 _

theorem selectChildren_updateNodeMany {v : Option Int} {c : List String} :
    ∀ (ids : List String) (t : List NodeRow),
      selectChildren (updateNodeMany t ids v) c = selectChildren t c := by
  intro ids
  induction ids with
  | nil => intro t; rfl
  | cons i rest ih =>
    intro t
    show selectChildren (updateNodeMany (updateNodeOne t i v) rest v) c = _
    rw [ih, selectChildren_updateNodeOne]

theorem childrenChunked_updateNodeMany {t : List NodeRow} {ids : List String}
    {v : Option Int} {f : List String} :
    childrenChunked (updateNodeMany t ids v) f = childrenChunked t f := by
  unfold childrenChunked
  congr 1
  funext c
  exact selectChildren_updateNodeMany ids t

/-- Chunked and unchunked child lookup agree up to membership, and the
whole marking loop gives identical tables. -/
theorem markGo_chunked_eq_unchunked :
    ∀ (fuel : Nat) (t : List NodeRow) (fA fB : List String),
      (∀ x, x ∈ fA ↔ x ∈ fB) →
      ∀ (ids : List String) (v : Option Int),
        markSubtreesGo ids v t fA fuel = markSubtreesGoUnchunked ids v t fB fuel := by
  intro fuel
  induction fuel with
  | zero => intro t fA fB _ ids v; rfl
  | succ fuel ih =>
    intro t fA fB h ids v
    by_cases ha : fA = []
    · have hb : fB = [] := by
        rw [List.eq_nil_iff_forall_not_mem] at ha ⊢
        exact fun x hx => ha x ((h x).mpr hx)
      subst ha; subst hb
      rfl
    · have hb : fB ≠ [] := by
        intro hb
        apply ha
        rw [List.eq_nil_iff_forall_not_mem] at hb ⊢
        exact fun x hx => hb x ((h x).mp hx)
      have hae : fA.isEmpty = false := by
        cases fA with | nil => exact absurd rfl ha | cons a as => rfl
      have hbe : fB.isEmpty = false := by
        cases fB with | nil => exact absurd rfl hb | cons b bs => rfl
      simp only [markSubtreesGo, markSubtreesGoUnchunked, hae, hbe, Bool.false_eq_true,
        if_false]
      apply ih
      intro x
      rw [mem_childrenChunked]
      unfold childrenUnchunked
      rw [mem_selectChildren]
      constructor
      · rintro ⟨n, hn, hx, hp⟩; exact ⟨n, hn, hx, (h _).mp hp⟩
      · rintro ⟨n, hn, hx, hp⟩; exact ⟨n, hn, hx, (h _).mpr hp⟩

theorem frontierIter_succ (t : List NodeRow) (f : List String) (k : Nat) :
    frontierIter t f (k + 1) = frontierIter t (childrenChunked t f) k := rfl

theorem frontierIter_updateNodeMany {ids : List String} {v : Option Int} :
    ∀ (k : Nat) (t : List NodeRow) (f : List String),
      frontierIter (updateNodeMany t ids v) f k = frontierIter t f k := by
  intro k
  induction k with
  | zero => intro t f; rfl
  | succ k ih =>
    intro t f
    rw [frontierIter_succ, frontierIter_succ, childrenChunked_updateNodeMany, ih]

/-- Once the frontier empties after `m` levels, any fuel of at least
`m + 1` gives the same result: the loop has terminated. -/
theorem markGo_stable {ids : List String} {v : Option Int} :
    ∀ (m : Nat) (t : List NodeRow) (f : List String),
      frontierIter t f m = [] → ∀ fuel, m + 1 ≤ fuel →
        markSubtreesGo ids v t f fuel = markSubtreesGo ids v t f (m + 1) := by
  intro m
  induction m with
  | zero =>
    intro t f hf fuel hfuel
    have : f = [] := hf
    subst this
    obtain ⟨fuel2, rfl⟩ : ∃ fuel2, fuel = fuel2 + 1 := ⟨fuel - 1, by omega⟩
    rfl
  | succ m ih =>
    intro t f hf fuel hfuel
    obtain ⟨fuel2, rfl⟩ : ∃ fuel2, fuel = fuel2 + 1 := ⟨fuel - 1, by omega⟩
    by_cases hfe : f.isEmpty = true
    · simp only [markSubtreesGo, hfe, if_true]
    · simp only [markSubtreesGo, hfe, Bool.false_eq_true, if_false]
      apply ih
      · rw [childrenChunked_updateNodeMany, frontierIter_updateNodeMany]
        exact hf
      · omega

theorem partition_cons_pos {n : Nat} (hn : 0 < n) (x : α) (xs : List α) :
    partition (x :: xs) n = (x :: xs).take n :: partition ((x :: xs).drop n) n := by
  cases n with
  | zero => omega
  | succ s => exact partition_cons x xs s

/-- The number of chunks is the length divided by the chunk size,
rounded up. -/
theorem partition_length_pos {n : Nat} (hn : 0 < n) (l : List α) :
    (partition l n).length = (l.length + n - 1) / n := by
  obtain ⟨s, rfl⟩ : ∃ s, n = s + 1 := ⟨n - 1, by omega⟩
  have go : ∀ (f : Nat) (l : List α), l.length ≤ f →
      (partitionGo (s + 1) f l).length = (l.length + s) / (s + 1) := by
    intro f
    induction f with
    | zero =>
      intro l h
      have : l = [] := List.eq_nil_of_length_eq_zero (Nat.le_zero.mp h)
      subst this
      show 0 = (0 + s) / (s + 1)
      rw [Nat.zero_add, Nat.div_eq_of_lt (by omega)]
    | succ f ih =>
      intro l h
      cases l with
      | nil =>
        show 0 = (0 + s) / (s + 1)
        rw [Nat.zero_add, Nat.div_eq_of_lt (by omega)]
      | cons x xs =>
        have hlen : xs.length + 1 ≤ f + 1 := by simpa using h
        simp only [partitionGo, List.length_cons]
        rw [ih _ (by rw [List.length_drop]; simp only [List.length_cons]; omega)]
        rw [List.length_drop, List.length_cons]
        by_cases hm : xs.length + 1 ≤ s + 1
        · have e1 : xs.length + 1 - (s + 1) = 0 := by omega
          rw [e1, Nat.zero_add, Nat.div_eq_of_lt (by omega)]
          rw [show (xs.length + 1 + s) / (s + 1) = 1 from
            Nat.div_eq_of_lt_le (by omega) (by omega)]
        · have e3 : xs.length + 1 + s = (xs.length + 1 - (s + 1) + s) + (s + 1) := by
            omega
          rw [e3, Nat.add_div_right _ (by omega)]
  show (partitionGo (s + 1) l.length l).length = _
  rw [go l.length l (le_refl _)]
  have e : l.length + s = l.length + (s + 1) - 1 := by omega
  rw [e]

/-- Members of the frontier after `k` further expansion levels sit at
depth at least `j + k`, provided the current frontier sits at depth at
least `j ≥ 1` and consists of table-backed non-root nodes. -/
theorem frontier_depth_ge {t : List NodeRow} {d : String → Nat}
    (hd0 : ∀ n ∈ t, n.parent_id = n.tax_id → d n.tax_id = 0)
    (hstep : ∀ n ∈ t, n.parent_id ≠ n.tax_id → d n.tax_id = d n.parent_id + 1) :
    ∀ (k : Nat) (f : List String) (j : Nat), 1 ≤ j →
      (∀ x ∈ f, ∃ n, n ∈ t ∧ n.tax_id = x ∧ n.parent_id ≠ n.tax_id ∧ j ≤ d n.tax_id) →
      ∀ x ∈ frontierIter t f k,
        ∃ n, n ∈ t ∧ n.tax_id = x ∧ n.parent_id ≠ n.tax_id ∧ j + k ≤ d n.tax_id := by
  intro k
  induction k with
  | zero =>
    intro f j _ hf x hx
    rcases hf x hx with ⟨n, hn, hnx, hne, hd⟩
    exact ⟨n, hn, hnx, hne, by omega⟩
  | succ k ih =>
    intro f j hj hf x hx
    rw [frontierIter_succ] at hx
    have hf2 : ∀ y ∈ childrenChunked t f, ∃ n, n ∈ t ∧ n.tax_id = y ∧
        n.parent_id ≠ n.tax_id ∧ (j + 1) ≤ d n.tax_id := by
      intro y hy
      rcases mem_childrenChunked.mp hy with ⟨n, hn, hny, hp⟩
      rcases hf _ hp with ⟨m, _, hmy, _, hmd⟩
      by_cases hself : n.parent_id = n.tax_id
      · exfalso
        have h0 : d n.tax_id = 0 := hd0 n hn hself
        rw [hmy] at hmd
        rw [hself] at hmd
        omega
      · refine ⟨n, hn, hny, hself, ?_⟩
        have hstepn := hstep n hn hself
        rw [hmy] at hmd
        omega
    rcases ih (childrenChunked t f) (j + 1) (by omega) hf2 x hx with
      ⟨n, hn, hnx, hne, hd⟩
    exact ⟨n, hn, hnx, hne, by omega⟩

/-! ## Claim theorems -/

/-- C1: the propagation claim fails on the code.  In `exNodesProp`,
node "4" lies in the subtree rooted at node "3", a child of the
rank-"species" node "2" whose `is_valid` is 0.  After one call to
`update_subtree_validity`, node "3" is overwritten to 0 but node "4"
keeps its seeded value 1: the loop body passes `tax_ids` (the
boundary-adjacent ids), not the current frontier `to_mark`, to
`executemany`, so nodes below the first level are never updated. -/
theorem update_subtree_validity_misses_grandchild :
    getIsValid (update_subtree_validity exNodesProp "species") "2" = some 0 ∧
    getIsValid (update_subtree_validity exNodesProp "species") "3" = some 0 ∧
    getIsValid (update_subtree_validity exNodesProp "species") "4" = some 1 := by
  decide

/-- C2: the seeding claim fails on the code.  In `exNodesSeed` /
`exNamesSeed`, node "2"'s primary name "uncultured bacterium" has
`is_classified` 0 (consistently with `UNCLASSIFIED_REGEX`, third
conjunct), yet after `mark_is_valid` node "2" has `is_valid` 1: the
SQL subquery's `WHERE names.tax_id = tax_id` compares `names.tax_id`
with itself, so every node receives the first names row's
classification. -/
theorem mark_is_valid_ignores_own_primary_name :
    getIsValid (mark_is_valid exNodesSeed exNamesSeed) "2" = some 1 ∧
    (exNamesSeed.find? (fun r => r.tax_id == "2" && r.is_primary == 1)).map
      (fun r => r.is_classified) = some (some 0) ∧
    isClassifiedOfRow { tax_id := "2", tax_name := "uncultured bacterium",
                        unique_name := "", name_class := "scientific name" } = 0 := by
  decide

/-- C3: batched child lookups never name more than 250 ids, a frontier
of 600 ids is split into exactly 3 chunks, and the chunked marking loop
produces exactly the table of the unchunked reference loop, for every
table, frontier, marking list, value and fuel. -/
theorem mark_subtrees_chunking (f : List String) :
    (∀ c ∈ partition f 250, c.length ≤ 250) ∧
    (f.length = 600 → (partition f 250).length = 3) ∧
    (∀ (t : List NodeRow) (ids : List String) (v : Option Int) (fuel : Nat),
      markSubtreesGo ids v t f fuel = markSubtreesGoUnchunked ids v t f fuel) := by
  refine ⟨partition_chunk_length_le f 250, ?_, ?_⟩
  · intro h600
    rw [partition_length_pos (by norm_num : (0:Nat) < 250) f, h600]
  · intro t ids v fuel
    exact markGo_chunked_eq_unchunked fuel t f f (fun x => Iff.rfl) ids v

theorem mark_subtrees_chunking_witness :
    ((partition strings600 250).length = 3) ∧
    (markSubtreesGo ["3"] (some 0) exNodesProp strings600 3 =
      markSubtreesGoUnchunked ["3"] (some 0) exNodesProp strings600 3) :=
  ⟨(mark_subtrees_chunking strings600).2.1
      (by simp [strings600, List.length_map, List.length_range]),
    (mark_subtrees_chunking strings600).2.2 exNodesProp ["3"] (some 0) 3⟩

/-- C4: a tax_id all of whose name rows have `is_primary = 0` and which
has exactly one row of name_class "scientific name" ends up, after
`fix_missing_primary`, with `is_primary = 1` on exactly its
scientific-name row. -/
theorem fix_missing_primary_promotes_unique_scientific
    (t t2 : List NameRow) (i : String)
    (hzero : ∀ r ∈ rowsForTaxId t i, r.is_primary = 0)
    (hsci : ((rowsForTaxId t i).filter
      (fun r => r.name_class == "scientific name")).length = 1)
    (hok : fix_missing_primary t = Except.ok t2) :
    ∀ r ∈ rowsForTaxId t2 i, (r.is_primary = 1 ↔ r.name_class = "scientific name") := by
  have hne : rowsForTaxId t i ≠ [] := by
    intro h; rw [h] at hsci; simp at hsci
  have hmem : i ∈ missingPrimary t := by
    rw [mem_missingPrimary]
    refine ⟨?_, ?_⟩
    · rcases List.exists_cons_of_ne_nil hne with ⟨r0, rest, hrec⟩
      have hr0 : r0 ∈ rowsForTaxId t i := by rw [hrec]; exact List.mem_cons_self _ _
      rcases mem_rowsForTaxId.mp hr0 with ⟨hrt, hri⟩
      exact ⟨r0, hrt, hri⟩
    · rw [sumPrimary_eq_zero_iff (fun r hr => Or.inl (hzero r hr))]
      exact hzero
  have heff := fix_missing_primary_effect hok i
  rw [if_pos hmem] at heff
  rw [heff]
  intro r hr
  rcases List.mem_map.mp hr with ⟨s, hs, rfl⟩
  simp only [healRowFn, if_pos hsci]
  by_cases h : (s.name_class == "scientific name") = true
  · simp [h]
    exact beq_iff_eq.mp h
  · simp [h, hzero s hs]
    simpa using h

theorem fix_missing_primary_promotes_unique_scientific_witness :
    (({ tax_id := "7", tax_name := "X", unique_name := "",
          name_class := "scientific name", is_primary := 1,
          is_classified := some 1 } : NameRow).is_primary = 1 ↔
      ({ tax_id := "7", tax_name := "X", unique_name := "",
            name_class := "scientific name", is_primary := 1,
            is_classified := some 1 } : NameRow).name_class = "scientific name") :=
  fix_missing_primary_promotes_unique_scientific exNamesHeal exNamesHealAfter "7"
    (by decide) (by decide) (by decide) _ (by decide)

/-- C5 counterexample: a tax_id that already has two `is_primary = 1`
rows is not selected by the `SUM(is_primary) = 0` worklist query, so
`fix_missing_primary` leaves both rows primary — the table still has a
tax_id with more than one primary row after healing. -/
theorem fix_missing_primary_keeps_two_primaries :
    fix_missing_primary exNamesTwoPrimaries = Except.ok exNamesTwoPrimaries ∧
    countPrimaryRows exNamesTwoPrimaries "7" = 2 := by
  decide

/-- C5 amended: after `fix_missing_primary`, a tax_id that had zero
primary rows (with 0/1-valued `is_primary` and pairwise-distinct
(tax_name, unique_name, name_class) candidate keys) has exactly one
primary row, while a tax_id that already had primary rows keeps its
previous count unchanged. -/
theorem fix_missing_primary_primary_count (t t2 : List NameRow) (i : String)
    (hwf : ∀ r ∈ t, r.is_primary = 0 ∨ r.is_primary = 1)
    (hok : fix_missing_primary t = Except.ok t2)
    (hrow : rowsForTaxId t i ≠ [])
    (hdist : (rowsForTaxId t i).Pairwise (fun a b => ¬(a.tax_name = b.tax_name ∧
      a.unique_name = b.unique_name ∧ a.name_class = b.name_class))) :
    countPrimaryRows t2 i =
      if countPrimaryRows t i = 0 then 1 else countPrimaryRows t i := by
  have hwfi : ∀ r ∈ rowsForTaxId t i, r.is_primary = 0 ∨ r.is_primary = 1 :=
    fun r hr => hwf r (mem_rowsForTaxId.mp hr).1
  have heff := fix_missing_primary_effect hok i
  by_cases hc : countPrimaryRows t i = 0
  · rw [if_pos hc]
    have hzero : ∀ r ∈ rowsForTaxId t i, r.is_primary = 0 := by
      intro r hr
      rcases hwfi r hr with h | h
      · exact h
      · exfalso
        unfold countPrimaryRows at hc
        rw [List.length_eq_zero] at hc
        have hrf : r ∈ (rowsForTaxId t i).filter (fun r => r.is_primary == 1) :=
          List.mem_filter.mpr ⟨hr, by simp [h]⟩
        rw [hc] at hrf
        cases hrf
    have hmem : i ∈ missingPrimary t := by
      rw [mem_missingPrimary]
      refine ⟨?_, ?_⟩
      · rcases List.exists_cons_of_ne_nil hrow with ⟨r0, rest, hrec⟩
        have hr0 : r0 ∈ rowsForTaxId t i := by rw [hrec]; exact List.mem_cons_self _ _
        rcases mem_rowsForTaxId.mp hr0 with ⟨hrt, hri⟩
        exact ⟨r0, hrt, hri⟩
      · rw [sumPrimary_eq_zero_iff hwfi]
        exact hzero
    rw [if_pos hmem] at heff
    unfold countPrimaryRows
    rw [heff]
    by_cases hsci : ((rowsForTaxId t i).filter
        (fun r => r.name_class == "scientific name")).length = 1
    · exact count_healed_sci hzero hsci
    · rcases List.exists_cons_of_ne_nil hrow with ⟨r0, rest, hrec⟩
      exact count_healed_fallback hzero hrec hsci hdist
  · rw [if_neg hc]
    have hone : ∃ r ∈ rowsForTaxId t i, r.is_primary = 1 := by
      unfold countPrimaryRows at hc
      have hfne : (rowsForTaxId t i).filter (fun r => r.is_primary == 1) ≠ [] := by
        intro hnil; rw [hnil] at hc; exact hc rfl
      rcases List.exists_mem_of_ne_nil _ hfne with ⟨r, hr⟩
      have hr2 := List.mem_filter.mp hr
      exact ⟨r, hr2.1, by simpa using hr2.2⟩
    have hnot : i ∉ missingPrimary t := by
      rw [mem_missingPrimary]
      rintro ⟨_, hsum⟩
      exact sumPrimary_ne_zero_of_one hwfi hone hsum
    rw [if_neg hnot] at heff
    unfold countPrimaryRows
    rw [heff]

theorem fix_missing_primary_primary_count_witness :
    countPrimaryRows exNamesFallbackAfter "8" =
      if countPrimaryRows exNamesFallback "8" = 0 then 1
      else countPrimaryRows exNamesFallback "8" :=
  fix_missing_primary_primary_count exNamesFallback exNamesFallbackAfter "8"
    (by decide) (by decide) (by decide) (by decide)

/-- C6: `fix_missing_primary` is idempotent: after a completed first run
(on a table with 0/1-valued `is_primary`), the worklist of a second run
is empty — so the second run executes no UPDATE at all — and the second
run returns the table unchanged. -/
theorem fix_missing_primary_idempotent (t t2 : List NameRow)
    (hwf : ∀ r ∈ t, r.is_primary = 0 ∨ r.is_primary = 1)
    (hok : fix_missing_primary t = Except.ok t2) :
    missingPrimary t2 = [] ∧ fix_missing_primary t2 = Except.ok t2 := by
  have hmp : missingPrimary t2 = [] := by
    rw [List.eq_nil_iff_forall_not_mem]
    intro i hi
    rw [mem_missingPrimary] at hi
    rcases hi with ⟨⟨r, hrt2, hri⟩, hsum⟩
    have heff := fix_missing_primary_effect hok i
    by_cases hmem : i ∈ missingPrimary t
    · rw [if_pos hmem] at heff
      have hne : rowsForTaxId t i ≠ [] :=
        rowsForTaxId_ne_nil_of_mem_missingPrimary hmem
      have hwfi : ∀ s ∈ rowsForTaxId t i, s.is_primary = 0 ∨ s.is_primary = 1 :=
        fun s hs => hwf s (mem_rowsForTaxId.mp hs).1
      refine sumPrimary_ne_zero_of_one ?_ ?_ hsum
      · rw [heff]
        intro s hs
        rcases List.mem_map.mp hs with ⟨s0, hs0, rfl⟩
        exact healRowFn_preserves_01 hwfi s0 hs0
      · rw [heff]
        rcases healRowFn_exists_one hne with ⟨s0, hs0, h1⟩
        exact ⟨healRowFn (rowsForTaxId t i) s0, List.mem_map.mpr ⟨s0, hs0, rfl⟩, h1⟩
    · rw [if_neg hmem] at heff
      apply hmem
      rw [mem_missingPrimary]
      refine ⟨?_, by rw [← heff]; exact hsum⟩
      have hr : r ∈ rowsForTaxId t i := by
        rw [← heff]; exact mem_rowsForTaxId.mpr ⟨hrt2, hri⟩
      rcases mem_rowsForTaxId.mp hr with ⟨hrt, hri2⟩
      exact ⟨r, hrt, hri2⟩
  refine ⟨hmp, ?_⟩
  unfold fix_missing_primary
  rw [hmp]
  rfl

theorem fix_missing_primary_idempotent_witness :
    missingPrimary exNamesIdemAfter = [] ∧
    fix_missing_primary exNamesIdemAfter = Except.ok exNamesIdemAfter :=
  fix_missing_primary_idempotent exNamesIdem exNamesIdemAfter (by decide) (by decide)

/-- C7 counterexample: a healing worklist entry with zero candidate rows
makes the loop fail with the index error of `records[0]` (Python
`IndexError`), not with `IntegrityError`. -/
theorem healing_no_candidates_gives_index_error :
    fixMissingPrimaryFrom ([] : List NameRow) ["7"] =
      Except.error HealFailure.indexFailure ∧
    fixMissingPrimaryFrom ([] : List NameRow) ["7"] ≠
      Except.error HealFailure.integrityFailure := by
  decide

/-- C7 amended: inside `fix_missing_primary` the zero-candidate case is
unreachable — the worklist comes from the same `names` table, so the
whole run always returns normally — and if a worklist entry without
candidate rows is forced, the loop fails with an index error, not with
`IntegrityError`. -/
theorem fix_missing_primary_no_integrity_error (t : List NameRow) :
    (∃ t2, fix_missing_primary t = Except.ok t2) ∧
    ∀ i, rowsForTaxId t i = [] →
      fixMissingPrimaryFrom t [i] = Except.error HealFailure.indexFailure := by
  refine ⟨fix_missing_primary_ok t, ?_⟩
  intro i hi
  simp only [fixMissingPrimaryFrom, healOne_nil hi]

theorem fix_missing_primary_no_integrity_error_witness :
    (∃ t2, fix_missing_primary exNamesHeal = Except.ok t2) ∧
    fixMissingPrimaryFrom exNamesHeal ["99"] =
      Except.error HealFailure.indexFailure :=
  ⟨(fix_missing_primary_no_integrity_error exNamesHeal).1,
    (fix_missing_primary_no_integrity_error exNamesHeal).2 "99" (by decide)⟩

/-- C8: the classification claim fails on the code.  The two raw rows
`exRawTwoWordsA` and `exRawTwoWordsB` agree on their first two
whitespace-delimited words, yet `read_names` computes `is_classified` 1
for the first and 0 for the second: `_is_classified` searches the whole
`tax_name`, not only its first two words as its docstring states. -/
theorem read_names_depends_beyond_first_two_words :
    firstTwoWords exRawTwoWordsA.tax_name = firstTwoWords exRawTwoWordsB.tax_name ∧
    (read_names [exRawTwoWordsA, exRawTwoWordsB]).map (fun r => r.is_classified) =
      [some 1, some 0] := by
  decide

/-- C9: on a parent-pointer tree (witnessed by a depth function that is
0 exactly at self-parented roots, increments along parent pointers, and
is bounded by `h`) with a seed excluding the root, the frontier of the
`mark_subtrees` loop is empty after at most `h + 1` expansion levels,
and any fuel of at least `h + 2` gives the same final table: the `while`
loop terminates within one expansion level per unit of subtree depth. -/
theorem mark_subtrees_frontier_terminates (t : List NodeRow) (seed : List String)
    (d : String → Nat) (h : Nat)
    (hroot_seed : ∀ n ∈ t, n.parent_id = n.tax_id → n.tax_id ∉ seed)
    (hd0 : ∀ n ∈ t, n.parent_id = n.tax_id → d n.tax_id = 0)
    (hstep : ∀ n ∈ t, n.parent_id ≠ n.tax_id → d n.tax_id = d n.parent_id + 1)
    (hbound : ∀ n ∈ t, d n.tax_id ≤ h) :
    frontierIter t seed (h + 1) = [] ∧
    ∀ ids v fuel, h + 2 ≤ fuel →
      markSubtreesGo ids v t seed fuel = markSubtreesGo ids v t seed (h + 2) := by
  have hempty : frontierIter t seed (h + 1) = [] := by
    rw [frontierIter_succ, List.eq_nil_iff_forall_not_mem]
    intro x hx
    have hbase : ∀ y ∈ childrenChunked t seed, ∃ n, n ∈ t ∧ n.tax_id = y ∧
        n.parent_id ≠ n.tax_id ∧ 1 ≤ d n.tax_id := by
      intro y hy
      rcases mem_childrenChunked.mp hy with ⟨n, hn, hny, hp⟩
      by_cases hself : n.parent_id = n.tax_id
      · exact absurd (hself ▸ hp) (hroot_seed n hn hself)
      · refine ⟨n, hn, hny, hself, ?_⟩
        rw [hstep n hn hself]
        omega
    rcases frontier_depth_ge hd0 hstep h _ 1 (le_refl 1) hbase x hx with
      ⟨n, hn, _, _, hd⟩
    have := hbound n hn
    omega
  exact ⟨hempty, fun ids v fuel hf => markGo_stable (h + 1) t seed hempty fuel hf⟩

theorem mark_subtrees_frontier_terminates_witness :
    frontierIter exNodesProp ["3"] 4 = [] ∧
    markSubtreesGo ["3"] (some 0) exNodesProp ["3"] 9 =
      markSubtreesGo ["3"] (some 0) exNodesProp ["3"] 5 :=
  ⟨(mark_subtrees_frontier_terminates exNodesProp ["3"] exDepth 3
      (by decide) (by decide) (by decide) (by decide)).1,
    (mark_subtrees_frontier_terminates exNodesProp ["3"] exDepth 3
      (by decide) (by decide) (by decide) (by decide)).2 ["3"] (some 0) 9 (by omega)⟩

/-- C10 counterexample: `_add_space(species, genus)` with
species = genus = "Bacillus" evaluates `species[len(genus)]` out of
range and raises IndexError — the function is not total. -/
theorem add_space_equal_strings_index_error :
    addSpace "Bacillus".data "Bacillus".data = none := by
  decide

/-- C10 amended: `_add_space` returns normally for every pair of strings
with species ≠ genus; only the diagonal species = genus (where the
prefix test succeeds and `len(genus)` equals `len(species)`) raises. -/
theorem add_space_total_off_diagonal (species genus : List Char)
    (hne : species ≠ genus) : (addSpace species genus).isSome = true := by
  unfold addSpace
  by_cases hpre : genus.isPrefixOf species = true
  · rw [if_pos hpre]
    have hp : genus <+: species := by rwa [List.isPrefixOf_iff_prefix] at hpre
    rcases hp with ⟨tail, htail⟩
    cases tail with
    | nil =>
      rw [List.append_nil] at htail
      exact absurd htail.symm hne
    | cons c cs =>
      have hget : species[genus.length]? = some c := by
        rw [← htail, List.getElem?_append_right (le_refl _)]
        simp
      rw [hget]
      show (if c ≠ ' ' then
        some (species.take genus.length ++ [' '] ++ species.drop genus.length)
        else some species).isSome = true
      by_cases hc : c ≠ ' '
      · rw [if_pos hc]; rfl
      · rw [if_neg hc]; rfl
  · rw [if_neg hpre]; rfl

theorem add_space_total_off_diagonal_witness :
    "Bacilluscereus".data ≠ "Bacillus".data ∧
    (addSpace "Bacilluscereus".data "Bacillus".data).isSome = true :=
  ⟨by decide, add_space_total_off_diagonal _ _ (by decide)⟩

end Taxtastic
